import Mathlib

/-!
Verification of the conversation event-log storage and hybrid retrieval engine
(`plugins/logging` in the repository) against its natural-language specification.

The Python sources are shallowly embedded: pure functions become Lean functions,
the stateful log/index pair becomes explicit state passing and a step relation,
machine reals used for ranking scores become `ℚ` (or `ℝ` where square roots are
taken by the source), and fallible code returns `Except`/`Option`.  Each
definition is translated from the source file named in its doc comment.
-/

namespace LoggingPlugin

/-! ## Reciprocal Rank Fusion (`lib/search.py`, `SearchService.reciprocal_rank_fusion`)

The Python code folds over the two result lists with `enumerate`, accumulating
`scores[event_id] += 1 / (k + rank + 1)` in a dict.  We embed the dict as a
function `String → ℚ` and the two accumulation loops as `addRanks`.  Only the
event ids of the result rows matter for the fused score, so the lists are lists
of event ids. -/

/-- One RRF contribution: `1 / (k + rank + 1)` for a result at 0-based `rank`. -/
def rrfTerm (k : ℚ) (rank : ℕ) : ℚ := 1 / (k + rank + 1)

/-- The loop `for rank, result in enumerate(results): scores[id] += 1/(k+rank+1)`:
starting at rank `rank`, add each id's contribution into the score table. -/
def addRanks (k : ℚ) : ℕ → List String → (String → ℚ) → String → ℚ
  | _, [], scores => scores
  | rank, rid :: rest, scores =>
      addRanks k (rank + 1) rest (fun x => if x = rid then scores x + rrfTerm k rank else scores x)

/-- Fused score of event `eid` after `reciprocal_rank_fusion(keyword_results,
semantic_results, k)`: both enumeration loops run over an initially empty score
table (`scores.get(event_id, 0)` starts at `0`). -/
def reciprocal_rank_fusion_score (k : ℚ) (keywordIds semanticIds : List String)
    (eid : String) : ℚ :=
  addRanks k 0 semanticIds (addRanks k 0 keywordIds (fun _ => 0)) eid

theorem addRanks_of_not_mem (k : ℚ) {ids : List String} {eid : String} (h : eid ∉ ids) :
    ∀ (r : ℕ) (scores : String → ℚ), addRanks k r ids scores eid = scores eid := by
  induction ids with
  | nil => intro r scores; rfl
  | cons a rest ih =>
      intro r scores
      have hne : eid ≠ a := fun hc => h (hc ▸ List.mem_cons_self a rest)
      have hrest : eid ∉ rest := fun hc => h (List.mem_cons_of_mem a hc)
      rw [addRanks, ih hrest]
      simp [hne]

theorem addRanks_of_getElem (k : ℚ) {ids : List String} {eid : String} {rk : ℕ}
    (hnd : ids.Nodup) (hget : ids[rk]? = some eid) :
    ∀ (r : ℕ) (scores : String → ℚ),
      addRanks k r ids scores eid = scores eid + rrfTerm k (r + rk) := by
  induction ids generalizing rk with
  | nil => intro r scores; simp at hget
  | cons a rest ih =>
      intro r scores
      rcases rk with _ | rk
      · simp only [List.getElem?_cons_zero, Option.some_inj] at hget
        subst hget
        have hnotmem : a ∉ rest := (List.nodup_cons.mp hnd).1
        rw [addRanks, addRanks_of_not_mem k hnotmem]
        simp
      · simp only [List.getElem?_cons_succ] at hget
        have hmem : eid ∈ rest := by
          obtain ⟨h, he⟩ := List.getElem?_eq_some.mp hget
          exact he ▸ List.getElem_mem h
        have hne : eid ≠ a := by
          intro hc; subst hc
          exact (List.nodup_cons.mp hnd).1 hmem
        rw [addRanks, ih (List.nodup_cons.mp hnd).2 hget]
        simp only [hne, if_false]
        have : r + (rk + 1) = (r + 1) + rk := by omega
        rw [this]

/-- C1: the fused score computed by hybrid search's reciprocal rank fusion.
For an event at 0-based keyword rank `rk` and 0-based semantic rank `rs` the
score is exactly `1/(60+rk+1) + 1/(60+rs+1)`; an event appearing in only one of
the two ranked lists gets only that list's term.  Ranked lists returned by the
two searches carry distinct event ids (`Nodup`). -/
theorem C1_rrf_fused_score :
    (∀ (kw sem : List String) (eid : String) (rk rs : ℕ),
      kw.Nodup → sem.Nodup → kw[rk]? = some eid → sem[rs]? = some eid →
      reciprocal_rank_fusion_score 60 kw sem eid
        = 1 / (60 + (rk : ℚ) + 1) + 1 / (60 + (rs : ℚ) + 1)) ∧
    (∀ (kw sem : List String) (eid : String) (rk : ℕ),
      kw.Nodup → kw[rk]? = some eid → eid ∉ sem →
      reciprocal_rank_fusion_score 60 kw sem eid = 1 / (60 + (rk : ℚ) + 1)) ∧
    (∀ (kw sem : List String) (eid : String) (rs : ℕ),
      sem.Nodup → sem[rs]? = some eid → eid ∉ kw →
      reciprocal_rank_fusion_score 60 kw sem eid = 1 / (60 + (rs : ℚ) + 1)) := by
  refine ⟨?_, ?_, ?_⟩
  · intro kw sem eid rk rs hkw hsem hgk hgs
    rw [reciprocal_rank_fusion_score, addRanks_of_getElem 60 hsem hgs,
      addRanks_of_getElem 60 hkw hgk]
    simp [rrfTerm]
  · intro kw sem eid rk hkw hgk hns
    rw [reciprocal_rank_fusion_score, addRanks_of_not_mem 60 hns,
      addRanks_of_getElem 60 hkw hgk]
    simp [rrfTerm]
  · intro kw sem eid rs hsem hgs hnk
    rw [reciprocal_rank_fusion_score, addRanks_of_getElem 60 hsem hgs,
      addRanks_of_not_mem 60 hnk]
    simp [rrfTerm]

/-- Witness for C1 at a concrete input: event `"b"` at keyword rank 1 and
semantic rank 0 receives fused score `1/62 + 1/61`. -/
theorem C1_rrf_fused_score_witness :
    reciprocal_rank_fusion_score 60 ["a", "b"] ["b", "c"] "b"
      = 1 / (60 + (1 : ℚ) + 1) + 1 / (60 + (0 : ℚ) + 1) :=
  C1_rrf_fused_score.1 ["a", "b"] ["b", "c"] "b" 1 0
    (by decide) (by decide) (by decide) (by decide)

/-! ## Data model

`Event` mirrors the JSON record written by `hooks/log_event.py` (`process_event`)
and read back by the storage layer: `{id, type, ts, session_id,
agent_session_num, data, content?, images?}`.  Of the free-form `data` payload
we model the fields the verified code actually reads: `data.source` (context
reset marker), `data.transcript_path` (Stop events) and `data.response`
(AssistantResponse events).  Image references mirror the dicts built by
`extract_images_from_prompt`: stored files are content-addressed names
`{hash}_{eventId}_{blockIndex}.{ext}`, kept here as a structured name. -/

/-- A stored image file name `{hash}_{eventId}_{blockIndex}{ext}` (the four
components determine the file name built in `extract_images_from_prompt`). -/
structure ImgFile where
  hash : String
  event_id : String
  idx : ℕ
  ext : String
deriving DecidableEq

/-- An entry of an event's `images` list: either a stored file reference or a
URL reference, as built by `extract_images_from_prompt`. -/
structure ImgRef where
  file : Option ImgFile
  url : Option String
  media_type : String
  size : ℕ
  index : ℕ
deriving DecidableEq

/-- One JSONL event record. -/
structure Event where
  id : String
  type : String
  ts : String
  session_id : String
  agent_session_num : ℕ
  source : Option String
  transcript_path : Option String
  response : String
  content : Option String
  images : Option (List ImgRef)
deriving DecidableEq

/-! ## Agent session number (`hooks/log_event.py`, `get_agent_session_num`)

The Python code counts occurrences of `"source": "compact"` / `"source":
"clear"` in the session file's text and adds one when the event being appended
itself carries such a marker.  We embed the log at event granularity: one
marker substring per logged event whose `data.source` is `compact`/`clear`
(JSON string escaping keeps payload text from producing spurious matches).
A missing file behaves as the empty log, matching the `not exists` branch. -/

/-- The test `source in ("compact", "clear")`. -/
def isMarker (src : Option String) : Bool :=
  src == some "compact" || src == some "clear"

/-- Number of already-logged events carrying a context-reset marker. -/
def countMarkers (events : List Event) : ℕ :=
  (events.filter (fun e => isMarker e.source)).length

/-- `get_agent_session_num(session_path, source)`: marker count of the existing
log plus one if the event being appended itself carries a marker. -/
def get_agent_session_num (events : List Event) (src : Option String) : ℕ :=
  countMarkers events + (if isMarker src then 1 else 0)

/-- The `agent_session_num` values assigned to a sequence of appended events:
each append recomputes `get_agent_session_num` over the log so far
(`process_event` builds the event with that number, then appends it). -/
def sessionNums (prior : List Event) : List Event → List ℕ
  | [] => []
  | e :: rest => get_agent_session_num prior e.source :: sessionNums (prior ++ [e]) rest

theorem countMarkers_append (a b : List Event) :
    countMarkers (a ++ b) = countMarkers a + countMarkers b := by
  simp [countMarkers, List.filter_append]

theorem countMarkers_nil : countMarkers [] = 0 := rfl

theorem countMarkers_cons (e : Event) (l : List Event) :
    countMarkers (e :: l) = (if isMarker e.source then 1 else 0) + countMarkers l := by
  by_cases h : isMarker e.source <;> simp [countMarkers, List.filter_cons, h]
  omega

theorem countMarkers_take_le (l : List Event) (n : ℕ) :
    countMarkers (l.take n) ≤ countMarkers l := by
  conv_rhs => rw [← List.take_append_drop n l]
  rw [countMarkers_append]
  omega

theorem sessionNums_length (prior events : List Event) :
    (sessionNums prior events).length = events.length := by
  induction events generalizing prior with
  | nil => rfl
  | cons e rest ih => simp [sessionNums, ih]

theorem sessionNums_getElem? (events : List Event) :
    ∀ (prior : List Event) (i : ℕ), i < events.length →
      (sessionNums prior events)[i]? =
        some (countMarkers prior + countMarkers (events.take (i + 1))) := by
  induction events with
  | nil => intro prior i h; simp at h
  | cons e rest ih =>
      intro prior i h
      rcases i with _ | i
      · simp only [sessionNums, List.getElem?_cons_zero, Option.some_inj,
          get_agent_session_num, List.take_succ_cons, List.take_zero, countMarkers_cons,
          countMarkers_nil]
        omega
      · have hlt : i < rest.length := by
          simp at h
          omega
        simp only [sessionNums, List.getElem?_cons_succ, ih (prior ++ [e]) i hlt,
          List.take_succ_cons, countMarkers_append, countMarkers_cons, countMarkers_nil,
          Option.some_inj]
        omega

/-- C2: the `agent_session_num` assigned to each appended event equals the
number of previously logged marker events (`source` in `{compact, clear}`),
plus one when the appended event itself carries a marker; the resulting
sequence is non-decreasing, increases by exactly 1 at each marker event, and
the marker/marker/plain scenario yields `1, 2, 2`. -/
theorem C2_agent_session_num :
    (∀ (events : List Event) (i : ℕ) (e : Event), events[i]? = some e →
        (sessionNums [] events)[i]? =
          some (countMarkers (events.take i) + (if isMarker e.source then 1 else 0))) ∧
    (∀ (events : List Event) (i j a b : ℕ), i ≤ j →
        (sessionNums [] events)[i]? = some a →
        (sessionNums [] events)[j]? = some b → a ≤ b) ∧
    (∀ (events : List Event) (i a b : ℕ) (e : Event), events[i + 1]? = some e →
        isMarker e.source = true →
        (sessionNums [] events)[i]? = some a →
        (sessionNums [] events)[i + 1]? = some b → b = a + 1) ∧
    (∀ (ev1 ev2 ev3 : Event), isMarker ev1.source = true → isMarker ev2.source = true →
        isMarker ev3.source = false → sessionNums [] [ev1, ev2, ev3] = [1, 2, 2]) := by
  have key : ∀ (events : List Event) (i : ℕ), i < events.length →
      (sessionNums [] events)[i]? = some (countMarkers (events.take (i + 1))) := by
    intro events i h
    have := sessionNums_getElem? events [] i h
    simpa [countMarkers] using this
  have hlen : ∀ (events : List Event) (i : ℕ) (a : ℕ),
      (sessionNums [] events)[i]? = some a → i < events.length := by
    intro events i a hget
    have := List.getElem?_eq_some.mp hget
    simpa [sessionNums_length] using this.1
  refine ⟨?_, ?_, ?_, ?_⟩
  · intro events i e hget
    have hi : i < events.length := by
      have := List.getElem?_eq_some.mp hget
      exact this.1
    rw [key events i hi]
    have hsplit : events.take (i + 1) = events.take i ++ [e] := by
      rw [List.take_succ]
      simp [hget]
    rw [hsplit, countMarkers_append]
    congr 2
    by_cases h : isMarker e.source <;> simp [countMarkers, List.filter_cons, h]
  · intro events i j a b hij ha hb
    have hi := hlen events i a ha
    have hj := hlen events j b hb
    rw [key events i hi] at ha
    rw [key events j hj] at hb
    have hmono : countMarkers (events.take (i + 1)) ≤ countMarkers (events.take (j + 1)) := by
      have : events.take (i + 1) = (events.take (j + 1)).take (i + 1) := by
        rw [List.take_take]
        congr 1
        omega
      rw [this]
      exact countMarkers_take_le _ _
    have ha' : countMarkers (events.take (i + 1)) = a := Option.some_inj.mp ha
    have hb' : countMarkers (events.take (j + 1)) = b := Option.some_inj.mp hb
    omega
  · intro events i a b e hget hm ha hb
    have hi := hlen events i a ha
    have hj := hlen events (i + 1) b hb
    rw [key events i hi] at ha
    rw [key events (i + 1) hj] at hb
    have hsplit : events.take (i + 2) = events.take (i + 1) ++ [e] := by
      rw [List.take_succ]
      simp [hget]
    have ha' : countMarkers (events.take (i + 1)) = a := Option.some_inj.mp ha
    have hb' : countMarkers (events.take (i + 2)) = b := Option.some_inj.mp hb
    rw [← hb', hsplit, countMarkers_append, ← ha']
    simp [countMarkers, List.filter_cons, hm]
  · intro ev1 ev2 ev3 h1 h2 h3
    simp [sessionNums, get_agent_session_num, countMarkers, List.filter_cons, h1, h2, h3]

/-- A concrete event used by witnesses: a `SessionStart`-shaped record with the
given source marker. -/
def sampleEvent (src : Option String) : Event :=
  ⟨"evt_0", "SessionStart", "2025-01-01T00:00:00", "sess", 0, src, none, "", none, none⟩

/-- Witness for C2 at a concrete input: appending events carrying markers
`compact`, `clear`, none yields the sequence `1, 2, 2`. -/
theorem C2_agent_session_num_witness :
    sessionNums [] [sampleEvent (some "compact"), sampleEvent (some "clear"), sampleEvent none]
      = [1, 2, 2] :=
  C2_agent_session_num.2.2.2 (sampleEvent (some "compact")) (sampleEvent (some "clear"))
    (sampleEvent none) (by decide) (by decide) (by decide)

/-! ## Incremental sync (`lib/storage.py`, `StorageManager.sync_session`)

`sync_session` reads the per-session cursor (`get_sync_position`), compares it
with the log file's current length (`get_last_position`), returns `0` when
nothing is new, otherwise parses the new region, upserts every event into the
SQLite `events` table (`INSERT OR REPLACE` keyed by id), and advances the
cursor to the observed length.  We embed the pair at event granularity: the
cursor counts events already reflected, the `events` table is the finite set
of upserted event ids (re-upserting an existing id replaces the row and leaves
the count unchanged, exactly like `INSERT OR REPLACE`). -/

/-- One session's log/index pair: the JSONL log (source of truth), the set of
event ids present in the SQLite `events` table, and the sync cursor. -/
structure SyncState where
  log : List Event
  indexIds : Finset String
  cursor : ℕ
deriving DecidableEq

/-- `StorageManager.sync_session`: returns `(events_synced, new state)`. -/
def sync_session (s : SyncState) : ℕ × SyncState :=
  if s.log.length ≤ s.cursor then (0, s)
  else
    let newEvents := s.log.drop s.cursor
    (newEvents.length,
      { log := s.log,
        indexIds := s.indexIds ∪ (newEvents.map Event.id).toFinset,
        cursor := s.log.length })

/-- C4: calling `sync_session` twice with no appends in between makes the
second call return 0 newly synced events and leave the index and cursor (the
whole state) unchanged. -/
theorem C4_sync_idempotent (s : SyncState) :
    sync_session (sync_session s).2 = (0, (sync_session s).2) := by
  by_cases h : s.log.length ≤ s.cursor
  · simp [sync_session, h]
  · have h1 : (sync_session s).2 =
        { log := s.log,
          indexIds := s.indexIds ∪ ((s.log.drop s.cursor).map Event.id).toFinset,
          cursor := s.log.length } := by
      simp [sync_session, h]
    rw [h1]
    simp [sync_session]

/-- Witness for C4 at a concrete input: a one-event log with a fresh index. -/
theorem C4_sync_idempotent_witness :
    sync_session (sync_session ⟨[sampleEvent none], ∅, 0⟩).2
      = (0, (sync_session ⟨[sampleEvent none], ∅, 0⟩).2) :=
  C4_sync_idempotent ⟨[sampleEvent none], ∅, 0⟩

/-! ## Reading a session log (`lib/storage.py`, `JSONLStorage.read_session` and
the parsing loop of `StorageManager.sync_session`)

Both loops are `for line in f: if line.strip(): json.loads(line)`.  Python file
iteration splits the text on newlines and, crucially, also yields a trailing
chunk that is not newline-terminated.  Each yielded chunk is, after
`json.loads`, exactly one of: whitespace-only (skipped by `line.strip()`), not
valid JSON (raises, aborting the read), or a complete serialized event.  We
embed a chunk as that three-way classification and a log file as its
newline-terminated chunks plus the optional trailing fragment. -/

/-- Classification of one chunk yielded by `for line in f` after stripping and
`json.loads`. -/
inductive Chunk where
  | blank : Chunk
  | junk : Chunk
  | record : Event → Chunk
deriving DecidableEq

/-- A session file's text: the newline-terminated lines, then the optional
non-newline-terminated trailing fragment. -/
structure LogText where
  complete : List Chunk
  frag : Option Chunk
deriving DecidableEq

/-- The chunk sequence Python's `for line in f` yields: every complete line,
then the trailing fragment if the file does not end in a newline. -/
def pythonLines (t : LogText) : List Chunk :=
  t.complete ++ t.frag.toList

/-- The loop body `if line.strip(): yield json.loads(line)`: blank chunks are
skipped, invalid JSON raises (an `Except.error` aborting the whole read),
records are yielded in order. -/
def parseChunks : List Chunk → Except Unit (List Event)
  | [] => .ok []
  | Chunk.blank :: rest => parseChunks rest
  | Chunk.junk :: _ => .error ()
  | Chunk.record e :: rest =>
      match parseChunks rest with
      | .ok l => .ok (e :: l)
      | .error u => .error u

/-- `JSONLStorage.read_session`: iterate the whole file. -/
def read_session (t : LogText) : Except Unit (List Event) :=
  parseChunks (pythonLines t)

/-- The parsing part of `StorageManager.sync_session`: `f.seek(last_pos)` then
the same loop, i.e. the same chunk sequence with the first `cursor` chunks
skipped (cursor at chunk granularity). -/
def sync_parse (t : LogText) (cursor : ℕ) : Except Unit (List Event) :=
  parseChunks ((pythonLines t).drop cursor)

theorem parseChunks_append (l m : List Chunk) :
    parseChunks (l ++ m) =
      match parseChunks l with
      | .error u => .error u
      | .ok el =>
        match parseChunks m with
        | .error u => .error u
        | .ok em => .ok (el ++ em) := by
  induction l with
  | nil =>
      simp only [List.nil_append, parseChunks]
      cases parseChunks m <;> rfl
  | cons c rest ih =>
      cases c with
      | blank => simpa [parseChunks] using ih
      | junk => rfl
      | record e =>
          simp only [List.cons_append, parseChunks, List.append_eq]
          rw [ih]
          cases parseChunks rest <;> cases parseChunks m <;> rfl

/-- C6 counterexample: a session file consisting of one complete serialized
event NOT terminated by a newline.  The claim says reading yields only the
events on complete (newline-terminated) lines — here none — but `read_session`
parses the trailing fragment like any line and yields the event. -/
theorem C6_counterexample :
    read_session ⟨[], some (Chunk.record (sampleEvent none))⟩
      ≠ parseChunks (LogText.mk [] (some (Chunk.record (sampleEvent none)))).complete := by
  simp [read_session, pythonLines, parseChunks]

/-- C6 amended: `read_session` (and the identical parsing loop in
`sync_session`) does NOT treat a non-newline-terminated trailing fragment as
unwritten: the fragment is parsed like any complete line.  A file ending in a
newline (or with a whitespace-only fragment) yields exactly the complete
lines' events; a fragment that is a complete serialized event is yielded in
addition; a fragment that is not valid JSON aborts the read with an error
instead of being ignored. -/
theorem C6_fragment_parsed :
    (∀ t : LogText, t.frag = none → read_session t = parseChunks t.complete) ∧
    (∀ t : LogText, t.frag = some Chunk.blank → read_session t = parseChunks t.complete) ∧
    (∀ (t : LogText) (e : Event) (el : List Event), t.frag = some (Chunk.record e) →
        parseChunks t.complete = .ok el → read_session t = .ok (el ++ [e])) ∧
    (∀ (t : LogText) (el : List Event), t.frag = some Chunk.junk →
        parseChunks t.complete = .ok el → read_session t = .error ()) ∧
    (∀ (t : LogText) (e : Event) (el : List Event) (cursor : ℕ),
        t.frag = some (Chunk.record e) → cursor ≤ t.complete.length →
        parseChunks (t.complete.drop cursor) = .ok el →
        sync_parse t cursor = .ok (el ++ [e])) := by
  refine ⟨?_, ?_, ?_, ?_, ?_⟩
  · intro t h
    simp [read_session, pythonLines, h]
  · intro t h
    rw [read_session, pythonLines, h, parseChunks_append]
    cases hc : parseChunks t.complete <;> simp [parseChunks]
  · intro t e el h hok
    rw [read_session, pythonLines, h, parseChunks_append, hok]
    simp [parseChunks]
  · intro t el h hok
    rw [read_session, pythonLines, h, parseChunks_append, hok]
    simp [parseChunks]
  · intro t e el cursor h hcur hok
    rw [sync_parse, pythonLines, h]
    rw [List.drop_append_eq_append_drop]
    have hz : cursor - t.complete.length = 0 := by omega
    rw [hz, parseChunks_append, hok]
    simp [parseChunks]

/-- Witness for the amended C6 at a concrete input: one complete line holding
an event plus a fragment holding a second event — both are returned. -/
theorem C6_fragment_parsed_witness :
    read_session ⟨[Chunk.record (sampleEvent none)],
        some (Chunk.record (sampleEvent (some "compact")))⟩
      = .ok ([sampleEvent none] ++ [sampleEvent (some "compact")]) :=
  C6_fragment_parsed.2.2.1 ⟨[Chunk.record (sampleEvent none)],
      some (Chunk.record (sampleEvent (some "compact")))⟩
    (sampleEvent (some "compact")) [sampleEvent none] rfl rfl

/-! ## Image extraction (`hooks/log_event.py`, `extract_images_from_prompt`)

The prompt is a list of content blocks.  For a base64 `image` block the code
validates the media type against an allow-list (defaulting to `image/jpeg`),
decodes the payload, hashes the bytes (`sha256(...).hexdigest()[:12]`), builds
the file name `{hash}_{eventId}_{blockIndex}{ext}` and writes the file only if
that name does not already exist.  We identify decoded bytes with the base64
payload string (`b64decode` is injective on valid input), model the truncated
digest by `contentHash` — the code relies only on it being a deterministic
function of the bytes — and model the images directory as the list of file
names present. -/

/-- One content block of a `UserPromptSubmit` prompt list.  `text`/`image`/
`imageUrl` are dict blocks of type `text` / base64 `image` / url `image`;
`plain` is a non-dict block (stringified into the text parts); `other` is any
other dict block (ignored). -/
inductive Block where
  | text (s : String)
  | image (data : String) (media_type : String)
  | imageUrl (url : String) (media_type : String)
  | plain (s : String)
  | other
deriving DecidableEq

/-- `ALLOWED_IMAGE_TYPES`. -/
def ALLOWED_IMAGE_TYPES : List String :=
  ["image/jpeg", "image/jpg", "image/png", "image/gif", "image/webp"]

/-- Media-type validation: substitute `image/jpeg` for types outside the
allow-list. -/
def validMedia (mt : String) : String :=
  if mt ∈ ALLOWED_IMAGE_TYPES then mt else "image/jpeg"

/-- `mimetypes.guess_extension(media_type) or ".jpg"` followed by the
`".jpe" → ".jpg"` fixup, tabulated for the allow-list. -/
def extOf : String → String
  | "image/png" => ".png"
  | "image/gif" => ".gif"
  | "image/webp" => ".webp"
  | _ => ".jpg"

/-- Stand-in for `hashlib.sha256(image_bytes).hexdigest()[:12]`: the code uses
it only as a deterministic function of the decoded bytes. -/
def contentHash (data : String) : String := data

/-- The block loop of `extract_images_from_prompt`: accumulates text parts,
image references and the set of files present in the images directory. -/
def extractLoop (event_id : String) :
    ℕ → List Block → List String → List ImgRef → List ImgFile →
      List String × List ImgRef × List ImgFile
  | _, [], texts, refs, fs => (texts, refs, fs)
  | idx, Block.text s :: rest, texts, refs, fs =>
      extractLoop event_id (idx + 1) rest (texts ++ [s]) refs fs
  | idx, Block.plain s :: rest, texts, refs, fs =>
      extractLoop event_id (idx + 1) rest (texts ++ [s]) refs fs
  | idx, Block.other :: rest, texts, refs, fs =>
      extractLoop event_id (idx + 1) rest texts refs fs
  | idx, Block.imageUrl u mt :: rest, texts, refs, fs =>
      if u = "" then extractLoop event_id (idx + 1) rest texts refs fs
      else extractLoop event_id (idx + 1) rest texts
        (refs ++ [⟨none, some u, mt, 0, idx⟩]) fs
  | idx, Block.image data mt :: rest, texts, refs, fs =>
      if data = "" then extractLoop event_id (idx + 1) rest texts refs fs
      else
        extractLoop event_id (idx + 1) rest texts
          (refs ++ [⟨some ⟨contentHash data, event_id, idx, extOf (validMedia mt)⟩,
            none, validMedia mt, data.length, idx⟩])
          (if (⟨contentHash data, event_id, idx, extOf (validMedia mt)⟩ : ImgFile) ∈ fs
            then fs
            else fs ++ [⟨contentHash data, event_id, idx, extOf (validMedia mt)⟩])

/-- `extract_images_from_prompt(prompt, ..., event_id)` for a block-list
prompt, over the current images-directory contents `fs`: returns the combined
text, the image reference list, and the resulting directory contents. -/
def extract_images_from_prompt (blocks : List Block) (event_id : String)
    (fs : List ImgFile) : String × List ImgRef × List ImgFile :=
  let r := extractLoop event_id 0 blocks [] [] fs
  (String.intercalate "\n" r.1, r.2.1, r.2.2)

/-- C7 counterexample: an event whose prompt holds two image blocks with
byte-identical base64 data.  The claim says exactly one file is stored; the
code builds the file name from the *block index* as well as the content hash,
so it stores two files. -/
theorem C7_counterexample :
    ((extract_images_from_prompt
        [Block.image "QUJD" "image/png", Block.image "QUJD" "image/png"]
        "evt_1" []).2.2.length = 1) = False := by
  decide

theorem extractLoop_texts (eid : String) (ts : List String) :
    ∀ (idx : ℕ) (rest : List Block) (texts : List String) (refs : List ImgRef)
      (fs : List ImgFile),
      extractLoop eid idx (ts.map Block.text ++ rest) texts refs fs
        = extractLoop eid (idx + ts.length) rest (texts ++ ts) refs fs := by
  induction ts with
  | nil => intro idx rest texts refs fs; simp
  | cons t ts ih =>
      intro idx rest texts refs fs
      simp only [List.map_cons, List.cons_append, extractLoop, List.append_eq]
      rw [ih]
      have h1 : idx + 1 + ts.length = idx + (t :: ts).length := by
        simp [List.length_cons]
        omega
      have h2 : (texts ++ [t]) ++ ts = texts ++ t :: ts := by simp
      rw [h1, h2]

theorem extractLoop_texts_only (eid : String) (ts : List String) (idx : ℕ)
    (texts : List String) (refs : List ImgRef) (fs : List ImgFile) :
    extractLoop eid idx (ts.map Block.text) texts refs fs = (texts ++ ts, refs, fs) := by
  have h := extractLoop_texts eid ts idx [] texts refs fs
  simpa [extractLoop] using h

/-- C7 amended: for an event whose prompt holds two image blocks with
byte-identical base64 data (possibly surrounded by text blocks), extraction
into an empty images directory stores TWO files — the deterministic file name
embeds the block index, so identical bytes at different block indices are
stored under distinct names — and returns two entries in the images reference
list; re-running the extraction for the same event is a no-op on the
directory (the dedup check skips names that already exist). -/
theorem C7_two_files_two_refs (t1s t2s t3s : List String) (d m eid : String)
    (hd : d ≠ "") :
    ((extract_images_from_prompt
        (t1s.map Block.text ++ Block.image d m :: (t2s.map Block.text ++
          Block.image d m :: t3s.map Block.text)) eid []).2.2 =
      [⟨contentHash d, eid, t1s.length, extOf (validMedia m)⟩,
       ⟨contentHash d, eid, t1s.length + 1 + t2s.length, extOf (validMedia m)⟩]) ∧
    ((⟨contentHash d, eid, t1s.length, extOf (validMedia m)⟩ : ImgFile)
      ≠ ⟨contentHash d, eid, t1s.length + 1 + t2s.length, extOf (validMedia m)⟩) ∧
    ((extract_images_from_prompt
        (t1s.map Block.text ++ Block.image d m :: (t2s.map Block.text ++
          Block.image d m :: t3s.map Block.text)) eid []).2.1.length = 2) ∧
    ((extract_images_from_prompt
        (t1s.map Block.text ++ Block.image d m :: (t2s.map Block.text ++
          Block.image d m :: t3s.map Block.text)) eid
        [⟨contentHash d, eid, t1s.length, extOf (validMedia m)⟩,
         ⟨contentHash d, eid, t1s.length + 1 + t2s.length, extOf (validMedia m)⟩]).2.2 =
      [⟨contentHash d, eid, t1s.length, extOf (validMedia m)⟩,
       ⟨contentHash d, eid, t1s.length + 1 + t2s.length, extOf (validMedia m)⟩]) := by
  have hne : (⟨contentHash d, eid, t1s.length, extOf (validMedia m)⟩ : ImgFile)
      ≠ ⟨contentHash d, eid, t1s.length + 1 + t2s.length, extOf (validMedia m)⟩ := by
    intro h
    have := congrArg ImgFile.idx h
    simp at this
    omega
  refine ⟨?_, hne, ?_, ?_⟩
  · simp [extract_images_from_prompt, extractLoop_texts, extractLoop_texts_only,
      extractLoop, hd, hne, Ne.symm hne]
  · simp [extract_images_from_prompt, extractLoop_texts, extractLoop_texts_only,
      extractLoop, hd, hne, Ne.symm hne]
  · simp [extract_images_from_prompt, extractLoop_texts, extractLoop_texts_only,
      extractLoop, hd, hne, Ne.symm hne]

/-- Witness for the amended C7 at a concrete input: two identical PNG blocks
with no surrounding text. -/
theorem C7_two_files_two_refs_witness :
    ((extract_images_from_prompt [Block.image "QUJD" "image/png",
        Block.image "QUJD" "image/png"] "evt_1" []).2.2 =
      [⟨contentHash "QUJD", "evt_1", 0, extOf (validMedia "image/png")⟩,
       ⟨contentHash "QUJD", "evt_1", 0 + 1 + 0, extOf (validMedia "image/png")⟩]) ∧
    ((⟨contentHash "QUJD", "evt_1", 0, extOf (validMedia "image/png")⟩ : ImgFile)
      ≠ ⟨contentHash "QUJD", "evt_1", 0 + 1 + 0, extOf (validMedia "image/png")⟩) := by
  have h := C7_two_files_two_refs [] [] [] "QUJD" "image/png" "evt_1" (by decide)
  exact ⟨h.1, h.2.1⟩

/-! ## Ingestion failure absorption (`hooks/log_event.py`, `main` and
`log_error`)

`main` parses stdin and calls `process_event` inside `try:`; on any exception
it calls `log_error` (which appends a `{timestamp} [{event_type}] ERROR: {msg}`
line to the side file `errors.log`) and exits with status 0; on success it
prints nothing and falls off the end of `main` (exit status 0).  We model one
hook invocation by its observable outcome: exit code, primary output streams
and the error-log contents, with the ingestion work abstracted as an
`Except String Unit` outcome. -/

/-- Observable outcome of one hook process invocation. -/
structure HookOutcome where
  exitCode : ℕ
  stdoutText : String
  stderrText : String
  errorLog : List String
deriving DecidableEq

/-- `log_error(error, event_type)`: append one timestamped, event-typed line
to `errors.log` (never to stdout/stderr). -/
def log_error (errorLog : List String) (ts eventType msg : String) : List String :=
  errorLog ++ [ts ++ " [" ++ eventType ++ "] ERROR: " ++ msg]

/-- `main()`: run ingestion; absorb any failure into the side error log; exit
0 either way; never write to stdout or stderr. -/
def mainRun (eventType ts : String) (ingestOutcome : Except String Unit)
    (errorLog : List String) : HookOutcome :=
  match ingestOutcome with
  | .ok _ => ⟨0, "", "", errorLog⟩
  | .error msg => ⟨0, "", "", log_error errorLog ts eventType msg⟩

/-- C9: every ingestion failure is absorbed: the process exits 0, writes
nothing to stdout/stderr, the error log only grows (append-only), and a
failure appends exactly one entry carrying the timestamp and event-type
context. -/
theorem C9_failures_absorbed (eventType ts : String) (ingestOutcome : Except String Unit)
    (errorLog : List String) :
    (mainRun eventType ts ingestOutcome errorLog).exitCode = 0 ∧
    (mainRun eventType ts ingestOutcome errorLog).stdoutText = "" ∧
    (mainRun eventType ts ingestOutcome errorLog).stderrText = "" ∧
    (∃ tail, (mainRun eventType ts ingestOutcome errorLog).errorLog = errorLog ++ tail) ∧
    (∀ msg, ingestOutcome = .error msg →
      (mainRun eventType ts ingestOutcome errorLog).errorLog
        = errorLog ++ [ts ++ " [" ++ eventType ++ "] ERROR: " ++ msg]) := by
  cases ingestOutcome with
  | ok u =>
      refine ⟨rfl, rfl, rfl, ⟨[], by simp [mainRun]⟩, ?_⟩
      intro msg h
      cases h
  | error m =>
      refine ⟨rfl, rfl, rfl, ⟨_, rfl⟩, ?_⟩
      intro msg h
      cases h
      rfl

/-- Witness for C9 at a concrete failing ingestion. -/
theorem C9_failures_absorbed_witness :
    (mainRun "Stop" "2025-01-01T00:00:00" (.error "boom") []).exitCode = 0 ∧
    (mainRun "Stop" "2025-01-01T00:00:00" (.error "boom") []).errorLog
      = [] ++ ["2025-01-01T00:00:00" ++ " [" ++ "Stop" ++ "] ERROR: " ++ "boom"] :=
  ⟨(C9_failures_absorbed "Stop" "2025-01-01T00:00:00" (.error "boom") []).1,
   (C9_failures_absorbed "Stop" "2025-01-01T00:00:00" (.error "boom") []).2.2.2.2
     "boom" rfl⟩

/-! ## Transcript-image correlation (`hooks/log_event.py`,
`update_session_with_images`)

The code reads the session log, records the positions of `UserPromptSubmit`
events, then for every `(msg_idx, image_refs)` pair from the transcript sets
`events[user_prompt_indices[msg_idx]]["images"] = image_refs` — but only when
that event has no `images` key yet — and finally rewrites the file with the
(possibly) updated event list.  `image_refs_by_msg` is a Python dict, so its
keys are pairwise distinct. -/

/-- The scan recording positions of `UserPromptSubmit` events, from position
`i`. -/
def userPromptIndicesFrom : ℕ → List Event → List ℕ
  | _, [] => []
  | i, e :: rest =>
      if e.type = "UserPromptSubmit" then i :: userPromptIndicesFrom (i + 1) rest
      else userPromptIndicesFrom (i + 1) rest

/-- `user_prompt_indices`. -/
def userPromptIndices (events : List Event) : List ℕ :=
  userPromptIndicesFrom 0 events

/-- Body of the update loop for one `(msg_idx, image_refs)` pair.  The two
`none` branches are unreachable for indices produced by `userPromptIndices`
over the same list (Python would raise; the positions are always in range). -/
def applyOne (indices : List ℕ) (events : List Event) (msgIdx : ℕ)
    (refs : List ImgRef) : List Event :=
  match indices[msgIdx]? with
  | none => events
  | some ei =>
      match events[ei]? with
      | none => events
      | some e =>
          if e.images = none then events.set ei { e with images := some refs }
          else events

/-- The update loop over `image_refs_by_msg.items()`. -/
def applyImageRefs (indices : List ℕ) :
    List Event → List (ℕ × List ImgRef) → List Event
  | events, [] => events
  | events, p :: rest => applyImageRefs indices (applyOne indices events p.1 p.2) rest

/-- `update_session_with_images(session_path, image_refs_by_msg)`: the event
list written back to the session file. -/
def update_session_with_images (events : List Event)
    (refsByMsg : List (ℕ × List ImgRef)) : List Event :=
  applyImageRefs (userPromptIndices events) events refsByMsg

theorem applyOne_length (indices : List ℕ) (events : List Event) (msgIdx : ℕ)
    (refs : List ImgRef) :
    (applyOne indices events msgIdx refs).length = events.length := by
  cases hidx : indices[msgIdx]? with
  | none => simp [applyOne, hidx]
  | some ei =>
      cases hev : events[ei]? with
      | none => simp [applyOne, hidx, hev]
      | some e =>
          by_cases himg : e.images = none
          · simp [applyOne, hidx, hev, himg]
          · simp [applyOne, hidx, hev, himg]

theorem applyImageRefs_length (indices : List ℕ) :
    ∀ (refs : List (ℕ × List ImgRef)) (events : List Event),
      (applyImageRefs indices events refs).length = events.length := by
  intro refs
  induction refs with
  | nil => intro events; rfl
  | cons p rest ih =>
      intro events
      rw [applyImageRefs, ih, applyOne_length]

theorem applyImageRefs_append (indices : List ℕ) (l1 l2 : List (ℕ × List ImgRef)) :
    ∀ events : List Event,
      applyImageRefs indices events (l1 ++ l2)
        = applyImageRefs indices (applyImageRefs indices events l1) l2 := by
  induction l1 with
  | nil => intro events; rfl
  | cons p rest ih =>
      intro events
      rw [List.cons_append, applyImageRefs, applyImageRefs, ih]

theorem userPromptIndicesFrom_mem {events : List Event} {i0 ei : ℕ}
    (h : ei ∈ userPromptIndicesFrom i0 events) :
    i0 ≤ ei ∧ ∃ e, events[ei - i0]? = some e ∧ e.type = "UserPromptSubmit" := by
  induction events generalizing i0 with
  | nil => simp [userPromptIndicesFrom] at h
  | cons e rest ih =>
      rw [userPromptIndicesFrom] at h
      by_cases ht : e.type = "UserPromptSubmit"
      · rw [if_pos ht] at h
        rcases List.mem_cons.mp h with h0 | hrest
        · subst h0
          exact ⟨le_refl _, e, by simp, ht⟩
        · obtain ⟨hle, f, hget, htf⟩ := ih hrest
          refine ⟨by omega, f, ?_, htf⟩
          have harith : ei - i0 = (ei - (i0 + 1)) + 1 := by omega
          rw [harith, List.getElem?_cons_succ]
          exact hget
      · rw [if_neg ht] at h
        obtain ⟨hle, f, hget, htf⟩ := ih h
        refine ⟨by omega, f, ?_, htf⟩
        have harith : ei - i0 = (ei - (i0 + 1)) + 1 := by omega
        rw [harith, List.getElem?_cons_succ]
        exact hget

theorem userPromptIndicesFrom_pairwise (events : List Event) :
    ∀ i0 : ℕ, (userPromptIndicesFrom i0 events).Pairwise (· < ·) := by
  induction events with
  | nil => intro i0; simp [userPromptIndicesFrom]
  | cons e rest ih =>
      intro i0
      rw [userPromptIndicesFrom]
      by_cases ht : e.type = "UserPromptSubmit"
      · rw [if_pos ht]
        refine List.pairwise_cons.mpr ⟨?_, ih (i0 + 1)⟩
        intro x hx
        have := (userPromptIndicesFrom_mem hx).1
        omega
      · rw [if_neg ht]
        exact ih (i0 + 1)

theorem userPromptIndices_nodup (events : List Event) :
    (userPromptIndices events).Nodup :=
  (userPromptIndicesFrom_pairwise events 0).imp Nat.ne_of_lt

/-- Positions recorded by `userPromptIndices` hold `UserPromptSubmit` events. -/
theorem userPromptIndices_spec {events : List Event} {j ei : ℕ}
    (h : (userPromptIndices events)[j]? = some ei) :
    ∃ e, events[ei]? = some e ∧ e.type = "UserPromptSubmit" := by
  have hmem : ei ∈ userPromptIndices events := by
    obtain ⟨hj, he⟩ := List.getElem?_eq_some.mp h
    exact he ▸ List.getElem_mem hj
  obtain ⟨_, e, hget, ht⟩ := userPromptIndicesFrom_mem hmem
  exact ⟨e, by simpa using hget, ht⟩

theorem applyOne_getElem?_ne (indices : List ℕ) (events : List Event)
    (msgIdx : ℕ) (refs : List ImgRef) {i : ℕ}
    (h : indices[msgIdx]? ≠ some i) :
    (applyOne indices events msgIdx refs)[i]? = events[i]? := by
  cases hidx : indices[msgIdx]? with
  | none => simp [applyOne, hidx]
  | some ei =>
      have hne : ei ≠ i := fun hc => h (hc ▸ hidx)
      cases hev : events[ei]? with
      | none => simp [applyOne, hidx, hev]
      | some e =>
          by_cases himg : e.images = none
          · simp [applyOne, hidx, hev, himg, List.getElem?_set_ne hne]
          · simp [applyOne, hidx, hev, himg]

/-- Positions not targeted by any processed pair are untouched. -/
theorem applyImageRefs_untouched (indices : List ℕ) {i : ℕ} :
    ∀ (refs : List (ℕ × List ImgRef)) (events : List Event),
      (∀ p ∈ refs, indices[p.1]? ≠ some i) →
      (applyImageRefs indices events refs)[i]? = events[i]? := by
  intro refs
  induction refs with
  | nil => intro events _; rfl
  | cons p rest ih =>
      intro events hno
      rw [applyImageRefs]
      rw [ih _ fun q hq => hno q (List.mem_cons_of_mem _ hq)]
      exact applyOne_getElem?_ne indices events p.1 p.2
        (hno p (List.mem_cons_self _ _))

theorem applyOne_frozen (indices : List ℕ) (events : List Event)
    (msgIdx : ℕ) (refs : List ImgRef) {i : ℕ} {v : Event}
    (hv : v.images ≠ none) (h : events[i]? = some v) :
    (applyOne indices events msgIdx refs)[i]? = some v := by
  cases hidx : indices[msgIdx]? with
  | none => simp [applyOne, hidx, h]
  | some ei =>
      cases hev : events[ei]? with
      | none => simp [applyOne, hidx, hev, h]
      | some e =>
          by_cases heq : ei = i
          · subst heq
            rw [h] at hev
            cases hev
            simp [applyOne, hidx, h, hv]
          · by_cases himg : e.images = none
            · simp [applyOne, hidx, hev, himg, List.getElem?_set_ne heq, h]
            · simp [applyOne, hidx, hev, himg, h]

/-- Once a position holds an event whose `images` is set, later pairs leave it
alone (the `"images" not in event` guard fails). -/
theorem applyImageRefs_frozen (indices : List ℕ) {i : ℕ} {v : Event}
    (hv : v.images ≠ none) :
    ∀ (refs : List (ℕ × List ImgRef)) (events : List Event),
      events[i]? = some v →
      (applyImageRefs indices events refs)[i]? = some v := by
  intro refs
  induction refs with
  | nil => intro events h; exact h
  | cons p rest ih =>
      intro events h
      rw [applyImageRefs]
      exact ih _ (applyOne_frozen indices events p.1 p.2 hv h)

/-- Frame invariant carried through the update loop: every position either
holds the original event or the original with `images` newly populated, the
latter only at `UserPromptSubmit` positions that had no `images`. -/
theorem applyImageRefs_frame (indices : List ℕ) (base : List Event)
    (hidc : ∀ (j ei : ℕ), indices[j]? = some ei →
      ∃ e, base[ei]? = some e ∧ e.type = "UserPromptSubmit") :
    ∀ (refs : List (ℕ × List ImgRef)) (events : List Event),
      (∀ (i : ℕ) (e0 : Event), base[i]? = some e0 →
        ∃ ec, events[i]? = some ec ∧
          (ec = e0 ∨ (e0.type = "UserPromptSubmit" ∧ e0.images = none ∧
            ∃ rs, ec = { e0 with images := some rs }))) →
      ∀ (i : ℕ) (e0 : Event), base[i]? = some e0 →
        ∃ ec, (applyImageRefs indices events refs)[i]? = some ec ∧
          (ec = e0 ∨ (e0.type = "UserPromptSubmit" ∧ e0.images = none ∧
            ∃ rs, ec = { e0 with images := some rs })) := by
  intro refs
  induction refs with
  | nil => intro events hinv i e0 h0; exact hinv i e0 h0
  | cons p rest ih =>
      intro events hinv i e0 h0
      rw [applyImageRefs]
      refine ih _ ?_ i e0 h0
      intro i' e0' h0'
      obtain ⟨msgIdx, rs⟩ := p
      cases hidx : indices[msgIdx]? with
      | none =>
          simp only [applyOne, hidx]
          exact hinv i' e0' h0'
      | some ei =>
          cases hev : events[ei]? with
          | none =>
              simp only [applyOne, hidx, hev]
              exact hinv i' e0' h0'
          | some e =>
              by_cases himg : e.images = none
              · simp only [applyOne, hidx, hev, himg, if_true]
                by_cases heq : ei = i'
                · subst heq
                  obtain ⟨eb, hbase, hups⟩ := hidc msgIdx ei hidx
                  rw [h0'] at hbase
                  cases hbase
                  obtain ⟨ec, hec, hrel⟩ := hinv ei e0' h0'
                  rw [hev] at hec
                  cases hec
                  have hlt : ei < events.length := (List.getElem?_eq_some.mp hev).1
                  refine ⟨{ e with images := some rs },
                    List.getElem?_set_eq_of_lt _ hlt, Or.inr ⟨hups, ?_, rs, ?_⟩⟩
                  · rcases hrel with hrel | ⟨_, himg0, rs0, hrel⟩
                    · rw [← hrel]; exact himg
                    · rw [hrel] at himg
                      simp at himg
                  · rcases hrel with hrel | ⟨_, himg0, rs0, hrel⟩
                    · rw [← hrel]
                    · rw [hrel] at himg
                      simp at himg
                · obtain ⟨ec, hec, hrel⟩ := hinv i' e0' h0'
                  refine ⟨ec, ?_, hrel⟩
                  rw [List.getElem?_set_ne heq, hec]
              · simp only [applyOne, hidx, hev, himg, if_false]
                exact hinv i' e0' h0'

/-- The per-position frame fact, shared by the C10 theorem and the log/index
invariant. -/
theorem update_session_frame (events : List Event) (refsByMsg : List (ℕ × List ImgRef))
    (i : ℕ) (e0 : Event) (h0 : events[i]? = some e0) :
    ∃ ec, (update_session_with_images events refsByMsg)[i]? = some ec ∧
      (ec = e0 ∨ (e0.type = "UserPromptSubmit" ∧ e0.images = none ∧
        ∃ rs, ec = { e0 with images := some rs })) := by
  refine applyImageRefs_frame (userPromptIndices events) events ?_ refsByMsg events ?_ i e0 h0
  · intro j ei hj
    exact userPromptIndices_spec hj
  · intro i2 e2 h2
    exact ⟨e2, h2, Or.inl rfl⟩

/-- C10: rewriting the session log for image correlation preserves the event
count and order; every event is unchanged except that a `UserPromptSubmit`
event matched by ordinal position whose `images` was unset gains the matched
references; all other events (non-`UserPromptSubmit`, or already carrying
`images`) are preserved verbatim. -/
theorem C10_correlation_frame :
    (∀ (events : List Event) (refsByMsg : List (ℕ × List ImgRef)),
      (update_session_with_images events refsByMsg).length = events.length) ∧
    (∀ (events : List Event) (refsByMsg : List (ℕ × List ImgRef)) (i : ℕ) (e0 : Event),
      events[i]? = some e0 →
      ∃ ec, (update_session_with_images events refsByMsg)[i]? = some ec ∧
        (ec = e0 ∨ (e0.type = "UserPromptSubmit" ∧ e0.images = none ∧
          ∃ rs, ec = { e0 with images := some rs }))) ∧
    (∀ (events : List Event) (refsByMsg : List (ℕ × List ImgRef))
        (msgIdx ei : ℕ) (rs : List ImgRef) (e0 : Event),
      (refsByMsg.map Prod.fst).Nodup → (msgIdx, rs) ∈ refsByMsg →
      (userPromptIndices events)[msgIdx]? = some ei →
      events[ei]? = some e0 → e0.images = none →
      (update_session_with_images events refsByMsg)[ei]? =
        some { e0 with images := some rs }) := by
  refine ⟨?_, ?_, ?_⟩
  · intro events refsByMsg
    exact applyImageRefs_length _ refsByMsg events
  · intro events refsByMsg i e0 h0
    exact update_session_frame events refsByMsg i e0 h0
  · intro events refsByMsg msgIdx ei rs e0 hkeys hmem hidx hev himg
    obtain ⟨pre, post, hsplit⟩ := List.append_of_mem hmem
    subst hsplit
    have hnodup_idc : (userPromptIndices events).Nodup := userPromptIndices_nodup events
    have hpre : ∀ p ∈ pre, (userPromptIndices events)[p.1]? ≠ some ei := by
      intro p hp hc
      have hne : p.1 ≠ msgIdx := by
        intro hc2
        have hkeys2 : (pre.map Prod.fst ++ msgIdx :: post.map Prod.fst).Nodup := by
          simpa using hkeys
        have hmsg : msgIdx ∈ pre.map Prod.fst := hc2 ▸ List.mem_map_of_mem Prod.fst hp
        rcases List.nodup_append.mp hkeys2 with ⟨_, _, hdisj⟩
        exact hdisj hmsg (List.mem_cons_self _ _)
      obtain ⟨hlt1, he1⟩ := List.getElem?_eq_some.mp hc
      obtain ⟨hlt2, he2⟩ := List.getElem?_eq_some.mp hidx
      exact hne (hnodup_idc.getElem_inj_iff.mp (he1.trans he2.symm))
    rw [update_session_with_images, applyImageRefs_append, applyImageRefs]
    have hmid : (applyImageRefs (userPromptIndices events) events pre)[ei]? = some e0 := by
      rw [applyImageRefs_untouched _ pre events hpre, hev]
    have hone : (applyOne (userPromptIndices events)
        (applyImageRefs (userPromptIndices events) events pre) msgIdx rs)[ei]?
        = some { e0 with images := some rs } := by
      have hlt : ei < (applyImageRefs (userPromptIndices events) events pre).length :=
        (List.getElem?_eq_some.mp hmid).1
      simp only [applyOne, hidx, hmid, himg, if_true]
      exact List.getElem?_set_eq_of_lt _ hlt
    refine applyImageRefs_frozen _ ?_ post _ hone
    simp

/-- A concrete `UserPromptSubmit` event without images, and a concrete image
reference, for witnesses. -/
def sampleUPS : Event :=
  ⟨"evt_1", "UserPromptSubmit", "2025-01-01T00:00:01", "sess", 0, none, none, "", some "hi", none⟩

def sampleRef : ImgRef :=
  ⟨some ⟨"abc", "evt_1", 0, ".png"⟩, none, "image/png", 3, 0⟩

/-- Witness for C10 at a concrete input: a single matched `UserPromptSubmit`
event without images gains the reference list. -/
theorem C10_correlation_frame_witness :
    (update_session_with_images [sampleUPS] [(0, [sampleRef])])[0]? =
      some { sampleUPS with images := some [sampleRef] } :=
  C10_correlation_frame.2.2 [sampleUPS] [(0, [sampleRef])] 0 0 [sampleRef] sampleUPS
    (by decide) (by simp) (by decide) (by decide) (by decide)

/-! ## Session repair (`tools/repair_sessions.py`, `analyze_session` and
`repair_session`)

`analyze_session` walks the event list and records every `Stop` event carrying
a truthy `transcript_path` whose immediately following event is not an
`AssistantResponse`.  `repair_session` re-reads the events and processes the
missing entries in reverse index order, keeping `last_response` to skip
consecutive duplicates; for each entry it either fails (transcript missing or
empty response), skips (duplicate of the response just inserted), or inserts a
synthesized `AssistantResponse` right after the `Stop` line.  The transcript
file system is embedded as two oracles: `texists` (`Path(...).exists()`) and
`tresp` (`get_response`), fixed across both runs. -/

/-- Truthiness of `event.get("data", {}).get("transcript_path")`: `None` and
`""` are falsy. -/
def tpOf (e : Event) : Option String :=
  match e.transcript_path with
  | some p => if p = "" then none else some p
  | none => none

/-- `events[i + 1].get("type") == "AssistantResponse"` on the remaining list. -/
def nextIsAR : List Event → Bool
  | f :: _ => f.type == "AssistantResponse"
  | [] => false

/-- The contribution of one loop iteration of `analyze_session`: at most one
missing entry `(index, stop_event, transcript_path)`. -/
def stopEntry (i : ℕ) (e : Event) (rest : List Event) : List (ℕ × Event × String) :=
  if e.type = "Stop" then
    match tpOf e with
    | some p => if nextIsAR rest then [] else [(i, e, p)]
    | none => []
  else []

/-- The `while i < len(events)` scan of `analyze_session`, from index `i`. -/
def analyzeFrom : ℕ → List Event → List (ℕ × Event × String)
  | _, [] => []
  | i, e :: rest => stopEntry i e rest ++ analyzeFrom (i + 1) rest

/-- `analyze_session(session_path)`: the missing entries in index order. -/
def analyze_session (events : List Event) : List (ℕ × Event × String) :=
  analyzeFrom 0 events

theorem stopEntry_shift (i : ℕ) (e : Event) (rest : List Event) :
    stopEntry (i + 1) e rest = (stopEntry i e rest).map (fun t => (t.1 + 1, t.2)) := by
  by_cases ht : e.type = "Stop"
  · cases htp : tpOf e with
    | none => simp [stopEntry, ht, htp]
    | some p =>
        by_cases hn : nextIsAR rest
        · simp [stopEntry, ht, htp, hn]
        · simp [stopEntry, ht, htp, hn]
  · simp [stopEntry, ht]

theorem analyzeFrom_shift (l : List Event) :
    ∀ i : ℕ, analyzeFrom (i + 1) l = (analyzeFrom i l).map (fun t => (t.1 + 1, t.2)) := by
  induction l with
  | nil => intro i; rfl
  | cons e rest ih =>
      intro i
      rw [analyzeFrom, analyzeFrom, List.map_append, ← stopEntry_shift, ih]

theorem stopEntry_mem_eq {i : ℕ} {e : Event} {rest : List Event}
    {t : ℕ × Event × String} (h : t ∈ stopEntry i e rest) :
    t.1 = i ∧ t.2.1 = e := by
  by_cases ht : e.type = "Stop"
  · cases htp : tpOf e with
    | none => simp [stopEntry, ht, htp] at h
    | some p =>
        by_cases hn : nextIsAR rest
        · simp [stopEntry, ht, htp, hn] at h
        · simp only [stopEntry, ht, htp, hn, if_true, if_false, Bool.false_eq_true,
            if_pos, List.mem_singleton] at h
          subst h
          exact ⟨rfl, rfl⟩
  · simp [stopEntry, ht] at h

theorem analyzeFrom_lb {l : List Event} {i : ℕ} {t : ℕ × Event × String}
    (h : t ∈ analyzeFrom i l) : i ≤ t.1 := by
  induction l generalizing i with
  | nil => simp [analyzeFrom] at h
  | cons e rest ih =>
      rw [analyzeFrom] at h
      rcases List.mem_append.mp h with h1 | h2
      · rw [(stopEntry_mem_eq h1).1]
      · have := ih h2
        omega

theorem analyzeFrom_ub {l : List Event} {i : ℕ} {t : ℕ × Event × String}
    (h : t ∈ analyzeFrom i l) : t.1 < i + l.length := by
  induction l generalizing i with
  | nil => simp [analyzeFrom] at h
  | cons e rest ih =>
      rw [analyzeFrom] at h
      rcases List.mem_append.mp h with h1 | h2
      · rw [(stopEntry_mem_eq h1).1]
        simp
      · have := ih h2
        simp only [List.length_cons]
        omega

theorem analyzeFrom_sorted (l : List Event) :
    ∀ i : ℕ, (analyzeFrom i l).Pairwise (fun a b => a.1 < b.1) := by
  induction l with
  | nil => intro i; simp [analyzeFrom]
  | cons e rest ih =>
      intro i
      rw [analyzeFrom]
      refine List.pairwise_append.mpr ⟨?_, ih (i + 1), ?_⟩
      · by_cases ht : e.type = "Stop"
        · cases htp : tpOf e with
          | none => simp [stopEntry, ht, htp]
          | some p =>
              by_cases hn : nextIsAR rest
              · simp [stopEntry, ht, htp, hn]
              · simp [stopEntry, ht, htp, hn]
        · simp [stopEntry, ht]
      · intro a ha b hb
        have h1 := (stopEntry_mem_eq ha).1
        have h2 := analyzeFrom_lb hb
        omega

theorem nextIsAR_append_cons (pre : List Event) (x : Event) (suf1 suf2 : List Event) :
    nextIsAR (pre ++ x :: suf1) = nextIsAR (pre ++ x :: suf2) := by
  cases pre with
  | nil => rfl
  | cons z zs => rfl

theorem stopEntry_congr (i : ℕ) (e : Event) {r1 r2 : List Event}
    (h : nextIsAR r1 = nextIsAR r2) : stopEntry i e r1 = stopEntry i e r2 := by
  rw [stopEntry, stopEntry, h]

theorem stopEntry_of_nextAR (i : ℕ) (e : Event) {rest : List Event}
    (h : nextIsAR rest = true) : stopEntry i e rest = [] := by
  by_cases ht : e.type = "Stop"
  · cases htp : tpOf e with
    | none => simp [stopEntry, ht, htp]
    | some p => simp [stopEntry, ht, htp, h]
  · simp [stopEntry, ht]

theorem stopEntry_of_not_stop (i : ℕ) {e : Event} (rest : List Event)
    (h : ¬ e.type = "Stop") : stopEntry i e rest = [] := by
  simp [stopEntry, h]

theorem filterMap_congr_map {α β : Type} (f : α → Option β) (g : α → β) :
    ∀ l : List α, (∀ a ∈ l, f a = some (g a)) → l.filterMap f = l.map g := by
  intro l
  induction l with
  | nil => intro h; rfl
  | cons a rest ih =>
      intro h
      rw [List.filterMap_cons_some (h a (List.mem_cons_self _ _)), List.map_cons,
        ih fun b hb => h b (List.mem_cons_of_mem _ hb)]

theorem filterMap_of_none {α β : Type} (f : α → Option β) :
    ∀ l : List α, (∀ a ∈ l, f a = none) → l.filterMap f = [] := by
  intro l
  induction l with
  | nil => intro h; rfl
  | cons a rest ih =>
      intro h
      rw [List.filterMap_cons_none (h a (List.mem_cons_self _ _)),
        ih fun b hb => h b (List.mem_cons_of_mem _ hb)]

/-- Effect on the missing-entry analysis of inserting an `AssistantResponse`
right after position `pre.length`: the entry at that position (if any)
disappears, earlier entries are unchanged, later entries shift up by one. -/
theorem analyzeFrom_insert (ar : Event) (har : ar.type = "AssistantResponse")
    (stop : Event) (suf : List Event) :
    ∀ (pre : List Event) (i : ℕ),
      analyzeFrom i (pre ++ stop :: ar :: suf)
        = (analyzeFrom i (pre ++ stop :: suf)).filterMap
            (fun t => if t.1 < i + pre.length then some t
                      else if t.1 = i + pre.length then none
                      else some (t.1 + 1, t.2)) := by
  intro pre
  induction pre with
  | nil =>
      intro i
      have hnotstop : ¬ ar.type = "Stop" := by rw [har]; decide
      have hnext : nextIsAR (ar :: suf) = true := by simp [nextIsAR, har]
      rw [List.nil_append, List.nil_append, analyzeFrom, analyzeFrom, analyzeFrom,
        stopEntry_of_nextAR i stop hnext, stopEntry_of_not_stop (i + 1) suf hnotstop,
        List.nil_append, List.nil_append, List.filterMap_append]
      have hdrop : (stopEntry i stop suf).filterMap
          (fun t => if t.1 < i + List.length ([] : List Event) then some t
                    else if t.1 = i + List.length ([] : List Event) then none
                    else some (t.1 + 1, t.2)) = [] := by
        refine filterMap_of_none _ _ fun t ht => ?_
        have h1 := (stopEntry_mem_eq ht).1
        simp [h1]
      rw [hdrop, List.nil_append, analyzeFrom_shift]
      refine (filterMap_congr_map _ _ _ fun t ht => ?_).symm
      have h1 := analyzeFrom_lb ht
      have h2 : ¬ t.1 < i + List.length ([] : List Event) := by simp; omega
      have h3 : ¬ t.1 = i + List.length ([] : List Event) := by simp; omega
      simp only [h2, h3, if_false]
  | cons x xs ih =>
      intro i
      rw [List.cons_append, List.cons_append, analyzeFrom, analyzeFrom,
        List.filterMap_append]
      have hcongr : stopEntry i x (xs ++ stop :: ar :: suf)
          = stopEntry i x (xs ++ stop :: suf) :=
        stopEntry_congr i x (nextIsAR_append_cons xs stop (ar :: suf) suf)
      have hkeep : (stopEntry i x (xs ++ stop :: suf)).filterMap
          (fun t => if t.1 < i + List.length (x :: xs) then some t
                    else if t.1 = i + List.length (x :: xs) then none
                    else some (t.1 + 1, t.2)) = stopEntry i x (xs ++ stop :: suf) := by
        have := filterMap_congr_map
          (fun t : ℕ × Event × String =>
            if t.1 < i + List.length (x :: xs) then some t
            else if t.1 = i + List.length (x :: xs) then none
            else some (t.1 + 1, t.2))
          id (stopEntry i x (xs ++ stop :: suf)) ?_
        · rw [this, List.map_id]
        · intro t ht
          have h1 := (stopEntry_mem_eq ht).1
          have h2 : t.1 < i + (xs.length + 1) := by omega
          simp [List.length_cons, h2]
      rw [hcongr, hkeep, ih (i + 1)]
      have harith : (i + 1) + xs.length = i + List.length (x :: xs) := by
        simp only [List.length_cons]
        omega
      rw [harith]

theorem insertIdx_eq_take_cons_drop {α : Type} (a : α) :
    ∀ (n : ℕ) (l : List α), n ≤ l.length →
      l.insertIdx n a = l.take n ++ a :: l.drop n := by
  intro n
  induction n with
  | zero => intro l h; simp
  | succ n ih =>
      intro l h
      cases l with
      | nil => simp at h
      | cons x xs =>
          rw [List.insertIdx_succ_cons, ih xs (by simpa using h)]
          simp

/-- Membership form: every missing entry after inserting an
`AssistantResponse` at position `i + 1` comes from a missing entry of the
original list at an index other than `i`, kept verbatim below `i` and shifted
up by one above `i`. -/
theorem analyze_insertIdx_mem {events : List Event} {i : ℕ} (hi : i < events.length)
    (ar : Event) (har : ar.type = "AssistantResponse") :
    ∀ t ∈ analyze_session (events.insertIdx (i + 1) ar),
      ∃ u ∈ analyze_session events, t.2 = u.2 ∧
        ((u.1 < i ∧ t = u) ∨ (i < u.1 ∧ t = (u.1 + 1, u.2))) := by
  intro t ht
  have hlen : i + 1 ≤ events.length := hi
  have hdecomp : events = events.take i ++ events[i] :: events.drop (i + 1) := by
    conv_lhs => rw [← List.take_append_drop i events]
    rw [List.drop_eq_getElem_cons hi]
  have hins : events.insertIdx (i + 1) ar
      = events.take i ++ events[i] :: ar :: events.drop (i + 1) := by
    rw [insertIdx_eq_take_cons_drop ar (i + 1) events hlen, List.take_succ,
      List.getElem?_eq_getElem hi]
    simp only [Option.toList_some, List.append_assoc, List.singleton_append]
  have htake : (events.take i).length = i := by
    rw [List.length_take]
    omega
  rw [analyze_session, hins, analyzeFrom_insert ar har _ _ _ 0] at ht
  obtain ⟨u, hu, hfu⟩ := List.mem_filterMap.mp ht
  rw [htake, Nat.zero_add] at hfu
  have hu2 : u ∈ analyze_session events := by
    rw [analyze_session, hdecomp]
    exact hu
  by_cases hlt : u.1 < i
  · rw [if_pos hlt, Option.some_inj] at hfu
    subst hfu
    exact ⟨u, hu2, rfl, Or.inl ⟨hlt, rfl⟩⟩
  · rw [if_neg hlt] at hfu
    by_cases heq : u.1 = i
    · rw [if_pos heq] at hfu
      simp at hfu
    · rw [if_neg heq, Option.some_inj] at hfu
      subst hfu
      exact ⟨u, hu2, rfl, Or.inr ⟨by omega, rfl⟩⟩

/-- The mutable state of `repair_session`: the event list, the three counters
and `last_response`. -/
structure RepairState where
  events : List Event
  repaired : ℕ
  failed : ℕ
  skipped : ℕ
  lastResponse : Option String
deriving DecidableEq

/-- The synthesized `AssistantResponse` event (`id = "evt_repair_{idx:04d}"`,
the zero padding of the id is immaterial to the claims). -/
def mkRepairEvent (idx : ℕ) (stop : Event) (response : String) : Event :=
  { id := "evt_repair_" ++ toString idx
    type := "AssistantResponse"
    ts := stop.ts
    session_id := stop.session_id
    agent_session_num := stop.agent_session_num
    source := none
    transcript_path := none
    response := response
    content := some response
    images := none }

/-- One iteration of the `for m in reversed(missing)` loop: fail when the
transcript is missing or yields no response, skip when the response equals the
one just inserted, otherwise insert the synthesized event after the `Stop`. -/
def repairStep (texists : String → Bool) (tresp : String → String)
    (st : RepairState) (m : ℕ × Event × String) : RepairState :=
  if texists m.2.2 = false then { st with failed := st.failed + 1 }
  else if tresp m.2.2 = "" then { st with failed := st.failed + 1 }
  else if st.lastResponse = some (tresp m.2.2) then { st with skipped := st.skipped + 1 }
  else
    { events := st.events.insertIdx (m.1 + 1) (mkRepairEvent m.1 m.2.1 (tresp m.2.2)),
      repaired := st.repaired + 1,
      failed := st.failed,
      skipped := st.skipped,
      lastResponse := some (tresp m.2.2) }

/-- The loop over `reversed(missing)` as a right fold over `missing` (the last
entry of `missing` is processed first). -/
def repairFold (texists : String → Bool) (tresp : String → String)
    (init : RepairState) (ms : List (ℕ × Event × String)) : RepairState :=
  ms.foldr (fun m st => repairStep texists tresp st m) init

/-- `repair_session(session_path, dry_run=False)`: analyze, then process the
missing entries in reverse order.  `events` of the result is what is written
back when `repaired > 0`; with `repaired = 0` nothing is written and the log
is unchanged (the fold also leaves `events` untouched in that case). -/
def repair_session (texists : String → Bool) (tresp : String → String)
    (events : List Event) : RepairState :=
  (analyze_session events).reverse.foldl (repairStep texists tresp)
    ⟨events, 0, 0, 0, none⟩

theorem repair_session_eq (texists : String → Bool) (tresp : String → String)
    (events : List Event) :
    repair_session texists tresp events
      = repairFold texists tresp ⟨events, 0, 0, 0, none⟩ (analyze_session events) := by
  rw [repair_session, repairFold, List.foldl_reverse]

/-- A concrete `Stop` event (truthy transcript path, no following response). -/
def stopEvt (n : String) : Event :=
  ⟨n, "Stop", "2025-01-01T00:00:02", "sess", 0, none, some "t", "", none, none⟩

/-- C5 counterexample: a log with two missing `Stop` events whose transcripts
yield the same response.  Run 1 inserts a response for the second `Stop` and
skips the first as a duplicate; run 2 starts with a fresh `last_response` and
inserts the skipped one, so the second run repairs 1 event, not 0, and
rewrites the log. -/
theorem C5_counterexample :
    ((repair_session (fun _ => true) (fun _ => "r")
        (repair_session (fun _ => true) (fun _ => "r")
          [stopEvt "e1", stopEvt "e2"]).events).repaired = 0) = False := by
  decide

theorem repairFold_cons (texists : String → Bool) (tresp : String → String)
    (init : RepairState) (m : ℕ × Event × String) (ms : List (ℕ × Event × String)) :
    repairFold texists tresp init (m :: ms)
      = repairStep texists tresp (repairFold texists tresp init ms) m := rfl

theorem repairStep_skipped_le (texists : String → Bool) (tresp : String → String)
    (st : RepairState) (m : ℕ × Event × String) :
    st.skipped ≤ (repairStep texists tresp st m).skipped := by
  by_cases h1 : texists m.2.2 = false
  · simp [repairStep, h1]
  · by_cases h2 : tresp m.2.2 = ""
    · simp [repairStep, h1, h2]
    · by_cases h3 : st.lastResponse = some (tresp m.2.2)
      · simp [repairStep, h1, h2, h3]
      · simp [repairStep, h1, h2, h3]

theorem repairStep_length_le (texists : String → Bool) (tresp : String → String)
    (st : RepairState) (m : ℕ × Event × String) :
    st.events.length ≤ (repairStep texists tresp st m).events.length := by
  by_cases h1 : texists m.2.2 = false
  · simp [repairStep, h1]
  · by_cases h2 : tresp m.2.2 = ""
    · simp [repairStep, h1, h2]
    · by_cases h3 : st.lastResponse = some (tresp m.2.2)
      · simp [repairStep, h1, h2, h3]
      · simp only [repairStep, h1, h2, h3, if_false, if_neg]
        exact List.length_le_length_insertIdx _ _ _

/-- The no-skip invariant: starting from the full log, after processing the
suffix `ms` of the missing list (with `pre` still unprocessed), every entry
still reported missing either fails (transcript absent or empty response) or
is one of the unprocessed `pre` entries; the event list only grows. -/
theorem repairFold_no_skip_analysis (texists : String → Bool) (tresp : String → String)
    (events0 : List Event) :
    ∀ (ms pre : List (ℕ × Event × String)),
      analyze_session events0 = pre ++ ms →
      (repairFold texists tresp ⟨events0, 0, 0, 0, none⟩ ms).skipped = 0 →
      (∀ t ∈ analyze_session
          ((repairFold texists tresp ⟨events0, 0, 0, 0, none⟩ ms).events),
        (texists t.2.2 = false ∨ tresp t.2.2 = "") ∨ t ∈ pre) ∧
      events0.length ≤
        (repairFold texists tresp ⟨events0, 0, 0, 0, none⟩ ms).events.length := by
  intro ms
  induction ms with
  | nil =>
      intro pre hsplit hskip
      refine ⟨?_, le_refl _⟩
      intro t ht
      right
      rw [repairFold, List.foldr_nil] at ht
      rw [List.append_nil] at hsplit
      rw [← hsplit]
      exact ht
  | cons m rest ih =>
      intro pre hsplit hskip
      rw [repairFold_cons] at hskip ⊢
      have hsplit2 : analyze_session events0 = (pre ++ [m]) ++ rest := by
        rw [hsplit, List.append_assoc, List.singleton_append]
      have hsub_skip : (repairFold texists tresp ⟨events0, 0, 0, 0, none⟩ rest).skipped = 0 := by
        have := repairStep_skipped_le texists tresp
          (repairFold texists tresp ⟨events0, 0, 0, 0, none⟩ rest) m
        omega
      obtain ⟨ihm, ihlen⟩ := ih (pre ++ [m]) hsplit2 hsub_skip
      by_cases h1 : texists m.2.2 = false
      · constructor
        · intro t ht
          simp only [repairStep, h1, if_true] at ht
          rcases ihm t ht with hf | hp
          · exact Or.inl hf
          · rcases List.mem_append.mp hp with hp | hp
            · exact Or.inr hp
            · rcases List.mem_singleton.mp hp with rfl
              exact Or.inl (Or.inl h1)
        · simpa [repairStep, h1] using ihlen
      · by_cases h2 : tresp m.2.2 = ""
        · constructor
          · intro t ht
            simp only [repairStep, h1, h2, if_true, if_false] at ht
            rcases ihm t ht with hf | hp
            · exact Or.inl hf
            · rcases List.mem_append.mp hp with hp | hp
              · exact Or.inr hp
              · rcases List.mem_singleton.mp hp with rfl
                exact Or.inl (Or.inr h2)
          · simpa [repairStep, h1, h2] using ihlen
        · by_cases h3 : (repairFold texists tresp ⟨events0, 0, 0, 0, none⟩ rest).lastResponse
              = some (tresp m.2.2)
          · exfalso
            simp [repairStep, h1, h2, h3] at hskip
          · have hm_in : m ∈ analyze_session events0 := by
              rw [hsplit]
              exact List.mem_append.mpr (Or.inr (List.mem_cons_self _ _))
            have hub : m.1 < events0.length := by
              have hm2 : m ∈ analyzeFrom 0 events0 := hm_in
              have := analyzeFrom_ub hm2
              omega
            have hi : m.1 < (repairFold texists tresp ⟨events0, 0, 0, 0, none⟩
                rest).events.length := by omega
            have hstep_events : (repairStep texists tresp
                (repairFold texists tresp ⟨events0, 0, 0, 0, none⟩ rest) m).events
                = (repairFold texists tresp ⟨events0, 0, 0, 0, none⟩ rest).events.insertIdx
                    (m.1 + 1) (mkRepairEvent m.1 m.2.1 (tresp m.2.2)) := by
              simp [repairStep, h1, h2, h3]
            constructor
            · intro t ht
              rw [hstep_events] at ht
              obtain ⟨u, hu, ht2, hcase⟩ :=
                analyze_insertIdx_mem hi (mkRepairEvent m.1 m.2.1 (tresp m.2.2))
                  rfl t ht
              rcases ihm u hu with hf | hp
              · left
                rw [ht2]
                exact hf
              · rcases List.mem_append.mp hp with hp | hp
                · -- `u` is an unprocessed entry: its index is below `m.1`,
                  -- so it is kept verbatim.
                  have hlt : u.1 < m.1 := by
                    have hsorted := analyzeFrom_sorted events0 0
                    rw [analyze_session] at hsplit
                    rw [hsplit] at hsorted
                    rcases List.pairwise_append.mp hsorted with ⟨_, _, hcross⟩
                    exact hcross u hp m (List.mem_cons_self _ _)
                  rcases hcase with ⟨_, rfl⟩ | ⟨hgt, _⟩
                  · exact Or.inr hp
                  · omega
                · rcases List.mem_singleton.mp hp with rfl
                  rcases hcase with ⟨hlt, _⟩ | ⟨hgt, _⟩
                  · omega
                  · omega
            · rw [hstep_events]
              have := List.length_le_length_insertIdx
                (repairFold texists tresp ⟨events0, 0, 0, 0, none⟩ rest).events
                (mkRepairEvent m.1 m.2.1 (tresp m.2.2)) (m.1 + 1)
              omega

/-- A run over entries that all fail inserts nothing: every iteration takes a
`failed` branch, so the counters say it all and the events are untouched. -/
theorem repairFold_all_fail (texists : String → Bool) (tresp : String → String) :
    ∀ (ms : List (ℕ × Event × String)) (evs : List Event),
      (∀ m ∈ ms, texists m.2.2 = false ∨ tresp m.2.2 = "") →
      repairFold texists tresp ⟨evs, 0, 0, 0, none⟩ ms
        = ⟨evs, 0, ms.length, 0, none⟩ := by
  intro ms
  induction ms with
  | nil => intro evs h; rfl
  | cons m rest ih =>
      intro evs h
      rw [repairFold_cons, ih evs fun q hq => h q (List.mem_cons_of_mem _ hq)]
      rcases h m (List.mem_cons_self _ _) with h1 | h2
      · simp [repairStep, h1, List.length_cons]
      · by_cases h1 : texists m.2.2 = false
        · simp [repairStep, h1, List.length_cons]
        · simp [repairStep, h1, h2, List.length_cons]

/-- C5 amended: running repair twice in succession (non-dry-run) repairs 0
events the second time and leaves the log unchanged, PROVIDED the first run
skipped no duplicate responses.  (When the first run skips an entry — two
missing `Stop`s with identical transcript responses — the second run inserts
it, see the counterexample.) -/
theorem C5_repair_twice (texists : String → Bool) (tresp : String → String)
    (events : List Event)
    (hskip : (repair_session texists tresp events).skipped = 0) :
    (repair_session texists tresp
        (repair_session texists tresp events).events).repaired = 0 ∧
    (repair_session texists tresp
        (repair_session texists tresp events).events).events
      = (repair_session texists tresp events).events := by
  have hall : ∀ t ∈ analyze_session ((repair_session texists tresp events).events),
      texists t.2.2 = false ∨ tresp t.2.2 = "" := by
    intro t ht
    rw [repair_session_eq] at hskip
    have h := (repairFold_no_skip_analysis texists tresp events
      (analyze_session events) [] (by simp) hskip).1
    rw [repair_session_eq] at ht
    rcases h t ht with hf | hp
    · exact hf
    · simp at hp
  rw [repair_session_eq texists tresp (repair_session texists tresp events).events,
    repairFold_all_fail texists tresp _ _ hall]
  exact ⟨rfl, rfl⟩

/-- Witness for the amended C5 at a concrete input: one missing `Stop` whose
transcript yields a response; run 1 inserts it with no skips, run 2 repairs
nothing. -/
theorem C5_repair_twice_witness :
    (repair_session (fun _ => true) (fun _ => "r")
        (repair_session (fun _ => true) (fun _ => "r") [stopEvt "e1"]).events).repaired
      = 0 :=
  (C5_repair_twice (fun _ => true) (fun _ => "r") [stopEvt "e1"] (by decide)).1

/-! ## The log/index invariant (C3)

One session's log/index pair evolves by: appends (`append_events` /
`JSONLStorage.append_event`, which only extend the JSONL file), sync
(`StorageManager.sync_session`), repair (`repair_session`, which only inserts
events) and transcript-image correlation (`update_session_with_images`, which
rewrites events in place).  The SQLite side counts one `events` row per
distinct upserted id (`INSERT OR REPLACE`).  The reachable states are built
from the empty session. -/

/-- The set of event ids present in a log. -/
def idSet (l : List Event) : Finset String := (l.map Event.id).toFinset

/-- One operation on a session's log/index pair. -/
inductive LogStep : SyncState → SyncState → Prop
  | append (s : SyncState) (newEvents : List Event) :
      LogStep s ⟨s.log ++ newEvents, s.indexIds, s.cursor⟩
  | sync (s : SyncState) : LogStep s (sync_session s).2
  | repair (s : SyncState) (texists : String → Bool) (tresp : String → String) :
      LogStep s ⟨(repair_session texists tresp s.log).events, s.indexIds, s.cursor⟩
  | correlate (s : SyncState) (refsByMsg : List (ℕ × List ImgRef)) :
      LogStep s ⟨update_session_with_images s.log refsByMsg, s.indexIds, s.cursor⟩

/-- States reachable from the empty session (no log, empty index, cursor 0). -/
inductive Reachable : SyncState → Prop
  | init : Reachable ⟨[], ∅, 0⟩
  | step {s t : SyncState} : Reachable s → LogStep s t → Reachable t

theorem mem_insertIdx_of_mem {α : Type} {a : α} {l : List α} (b : α) (n : ℕ)
    (h : a ∈ l) : a ∈ l.insertIdx n b := by
  by_cases hn : n ≤ l.length
  · exact (List.mem_insertIdx hn).mpr (Or.inr h)
  · rw [List.insertIdx_of_length_lt l b n (by omega)]
    exact h

theorem repairStep_mem (texists : String → Bool) (tresp : String → String)
    (st : RepairState) (m : ℕ × Event × String) {e : Event} (h : e ∈ st.events) :
    e ∈ (repairStep texists tresp st m).events := by
  by_cases h1 : texists m.2.2 = false
  · simpa [repairStep, h1] using h
  · by_cases h2 : tresp m.2.2 = ""
    · simpa [repairStep, h1, h2] using h
    · by_cases h3 : st.lastResponse = some (tresp m.2.2)
      · simpa [repairStep, h1, h2, h3] using h
      · simp only [repairStep, h1, h2, h3, if_false, if_neg]
        exact mem_insertIdx_of_mem _ _ h

theorem repairFold_mem (texists : String → Bool) (tresp : String → String) :
    ∀ (ms : List (ℕ × Event × String)) (init : RepairState) {e : Event},
      e ∈ init.events → e ∈ (repairFold texists tresp init ms).events := by
  intro ms
  induction ms with
  | nil => intro init e h; exact h
  | cons m rest ih =>
      intro init e h
      rw [repairFold_cons]
      exact repairStep_mem texists tresp _ m (ih init h)

/-- Repair never removes an event from the log. -/
theorem repair_session_mem (texists : String → Bool) (tresp : String → String)
    (events : List Event) {e : Event} (h : e ∈ events) :
    e ∈ (repair_session texists tresp events).events := by
  rw [repair_session_eq]
  exact repairFold_mem texists tresp _ _ h

/-- Correlation preserves every event id (each position keeps its event, at
most with `images` populated). -/
theorem update_session_idSet (events : List Event)
    (refsByMsg : List (ℕ × List ImgRef)) :
    idSet events ⊆ idSet (update_session_with_images events refsByMsg) := by
  intro x hx
  rw [idSet, List.mem_toFinset, List.mem_map] at hx
  obtain ⟨e, he, hid⟩ := hx
  obtain ⟨i, hi⟩ := List.mem_iff_getElem?.mp he
  obtain ⟨ec, hec, hrel⟩ := update_session_frame events refsByMsg i e hi
  have hecmem : ec ∈ update_session_with_images events refsByMsg := by
    obtain ⟨hlt, hgot⟩ := List.getElem?_eq_some.mp hec
    exact hgot ▸ List.getElem_mem hlt
  rw [idSet, List.mem_toFinset, List.mem_map]
  refine ⟨ec, hecmem, ?_⟩
  rcases hrel with rfl | ⟨_, _, rs, rfl⟩
  · exact hid
  · exact hid

/-- Each operation preserves the invariant that every indexed id occurs in
the log. -/
theorem LogStep.idSet_mono {s t : SyncState} (hs : LogStep s t)
    (ih : s.indexIds ⊆ idSet s.log) : t.indexIds ⊆ idSet t.log := by
  cases hs with
  | append newEvents =>
      refine ih.trans ?_
      intro x hx
      rw [idSet, List.mem_toFinset] at hx ⊢
      rw [List.map_append, List.mem_append]
      exact Or.inl hx
  | sync =>
      by_cases hc : s.log.length ≤ s.cursor
      · simpa [sync_session, hc] using ih
      · intro x hx
        simp only [sync_session, hc, if_false] at hx ⊢
        rcases Finset.mem_union.mp hx with hx1 | hx1
        · exact ih hx1
        · rw [List.mem_toFinset, List.mem_map] at hx1
          obtain ⟨e, he, hid⟩ := hx1
          rw [idSet, List.mem_toFinset, List.mem_map]
          exact ⟨e, List.drop_subset _ _ he, hid⟩
  | repair texists tresp =>
      refine ih.trans ?_
      intro x hx
      rw [idSet, List.mem_toFinset, List.mem_map] at hx
      obtain ⟨e, he, hid⟩ := hx
      rw [idSet, List.mem_toFinset, List.mem_map]
      exact ⟨e, repair_session_mem texists tresp s.log he, hid⟩
  | correlate refsByMsg =>
      exact ih.trans (update_session_idSet s.log refsByMsg)

/-- The invariant: in every reachable state, every id in the index occurs in
the log. -/
theorem Reachable.idSet_invariant {s : SyncState} (h : Reachable s) :
    s.indexIds ⊆ idSet s.log := by
  induction h with
  | init => simp [idSet]
  | step hr hs ih => exact hs.idSet_mono ih

/-- C3: in every reachable state of a session's log/index pair, the number of
events recorded in the index is at most the number of events in the log — no
operation (append, sync, repair, image correlation) makes the index lead. -/
theorem C3_index_never_leads (s : SyncState) (h : Reachable s) :
    s.indexIds.card ≤ s.log.length := by
  have hsub := h.idSet_invariant
  calc s.indexIds.card ≤ (idSet s.log).card := Finset.card_le_card hsub
    _ ≤ (s.log.map Event.id).length := List.toFinset_card_le _
    _ = s.log.length := List.length_map _ _

/-- Witness for C3 at a concrete reachable state: append one event, then sync. -/
theorem C3_index_never_leads_witness :
    ((sync_session ⟨[] ++ [sampleEvent none], ∅, 0⟩).2).indexIds.card
      ≤ ((sync_session ⟨[] ++ [sampleEvent none], ∅, 0⟩).2).log.length :=
  C3_index_never_leads _
    (Reachable.step (Reachable.step Reachable.init (LogStep.append ⟨[], ∅, 0⟩
      [sampleEvent none])) (LogStep.sync ⟨[] ++ [sampleEvent none], ∅, 0⟩))

/-! ## Embedding similarity (`lib/embeddings.py`, `EmbeddingStorage.search`)

The brute-force fallback computes
`dot_product / (norm1 * norm2) if norm1 and norm2 else 0.0` with
`norm = sum(x*x) ** 0.5`; `zip` truncates the dot product to the shorter
vector while each norm ranges over its whole vector.  Machine floats are
embedded as real numbers (`** 0.5` is the real square root).  The sqlite-vec
path returns `1 - distance` for a non-negative native distance. -/

/-- `sum(a * a for a in v)`. -/
def sumSq (v : List ℝ) : ℝ := (v.map (fun x => x * x)).sum

/-- `sum(a * b for a, b in zip(query_embedding, embedding))`. -/
def dotList (q e : List ℝ) : ℝ := (List.zipWith (· * ·) q e).sum

/-- `sum(x*x) ** 0.5`. -/
noncomputable def normList (v : List ℝ) : ℝ := Real.sqrt (sumSq v)

/-- The fallback similarity score of one stored embedding. -/
noncomputable def cosineScore (q e : List ℝ) : ℝ :=
  if normList q = 0 ∨ normList e = 0 then 0
  else dotList q e / (normList q * normList e)

/-- The sqlite-vec branch: `score = 1 - distance`. -/
def nativeScore (distance : ℝ) : ℝ := 1 - distance

theorem sumSq_nonneg (v : List ℝ) : 0 ≤ sumSq v := by
  induction v with
  | nil => simp [sumSq]
  | cons a rest ih =>
      simp only [sumSq, List.map_cons, List.sum_cons] at ih ⊢
      nlinarith [mul_self_nonneg a]

theorem cs_step (a b S A B : ℝ) (hS : S ^ 2 ≤ A * B) (hA : 0 ≤ A) (hB : 0 ≤ B) :
    (a * b + S) ^ 2 ≤ (a * a + A) * (b * b + B) := by
  have hX : 0 ≤ a * a * B + A * (b * b) :=
    add_nonneg (mul_nonneg (mul_self_nonneg a) hB) (mul_nonneg hA (mul_self_nonneg b))
  have hD : 0 ≤ A * B - S ^ 2 := by linarith
  have key : 2 * (a * b) * S ≤ a * a * B + A * (b * b) := by
    rcases le_or_lt (a * b * S) 0 with hneg | hpos
    · nlinarith
    · nlinarith [sq_nonneg (a * a * B - A * (b * b)),
        mul_nonneg (sq_nonneg (a * b)) hD]
  nlinarith

/-- Cauchy–Schwarz for the truncating dot product against the full norms. -/
theorem dot_sq_le (q : List ℝ) : ∀ e : List ℝ, (dotList q e) ^ 2 ≤ sumSq q * sumSq e := by
  induction q with
  | nil =>
      intro e
      simp [dotList, sumSq]
  | cons a q1 ih =>
      intro e
      cases e with
      | nil => simp [dotList, sumSq]
      | cons b e1 =>
          have hA : 0 ≤ sumSq q1 := sumSq_nonneg q1
          have hB : 0 ≤ sumSq e1 := sumSq_nonneg e1
          have hS := ih e1
          simp only [sumSq] at hA hB
          simp only [dotList, sumSq, List.zipWith_cons_cons, List.map_cons,
            List.sum_cons] at hS ⊢
          exact cs_step a b _ _ _ hS hA hB

theorem abs_dot_le (q e : List ℝ) : |dotList q e| ≤ normList q * normList e := by
  have h1 : (dotList q e) ^ 2 ≤ sumSq q * sumSq e := dot_sq_le q e
  have h2 : |dotList q e| = Real.sqrt ((dotList q e) ^ 2) := (Real.sqrt_sq_eq_abs _).symm
  rw [h2, normList, normList, ← Real.sqrt_mul (sumSq_nonneg q)]
  exact Real.sqrt_le_sqrt h1

/-- C8 counterexample: the fallback cosine similarity of opposite vectors is
`-1`, outside the claimed interval `[0, 1]`. -/
theorem C8_counterexample :
    ¬ (cosineScore [(1 : ℝ)] [(-1 : ℝ)] ∈ Set.Icc (0 : ℝ) 1) := by
  have hq : normList [(1 : ℝ)] = 1 := by simp [normList, sumSq]
  have he : normList [(-1 : ℝ)] = 1 := by
    have h : ((-1 : ℝ)) * (-1) = 1 := by norm_num
    simp [normList, sumSq, h]
  have hd : dotList [(1 : ℝ)] [(-1 : ℝ)] = -1 := by simp [dotList]
  have hscore : cosineScore [(1 : ℝ)] [(-1 : ℝ)] = -1 := by
    simp [cosineScore, hq, he, hd]
  rw [hscore, Set.mem_Icc]
  norm_num

/-- C8 amended: the brute-force fallback similarity lies in `[-1, 1]` (not
`[0, 1]`): `0` when either norm vanishes, otherwise a true cosine, which is
negative for anti-aligned vectors.  The native sqlite-vec backend returns
`1 - distance`, which is at most `1` for a non-negative distance but is not
clamped below. -/
theorem C8_similarity_range :
    (∀ q e : List ℝ, cosineScore q e ∈ Set.Icc (-1 : ℝ) 1) ∧
    (∀ distance : ℝ, 0 ≤ distance → nativeScore distance ≤ 1) := by
  constructor
  · intro q e
    rw [cosineScore]
    by_cases hc : normList q = 0 ∨ normList e = 0
    · rw [if_pos hc, Set.mem_Icc]
      constructor <;> norm_num
    · rw [if_neg hc]
      push_neg at hc
      obtain ⟨h1, h2⟩ := hc
      have hqpos : 0 < normList q := lt_of_le_of_ne (Real.sqrt_nonneg _) (Ne.symm h1)
      have hepos : 0 < normList e := lt_of_le_of_ne (Real.sqrt_nonneg _) (Ne.symm h2)
      have hpos : 0 < normList q * normList e := mul_pos hqpos hepos
      have habs := abs_dot_le q e
      rw [abs_le] at habs
      rw [Set.mem_Icc]
      constructor
      · rw [le_div_iff₀ hpos]
        linarith [habs.1]
      · rw [div_le_one hpos]
        exact habs.2
  · intro distance hd
    rw [nativeScore]
    linarith

/-- Witness for the amended C8 at a concrete input: a zero native distance
gives similarity at most 1. -/
theorem C8_similarity_range_witness : nativeScore 0 ≤ 1 :=
  C8_similarity_range.2 0 le_rfl

end LoggingPlugin
